import Mathlib

/-!
Shallow embedding of the vimrs editor core (src/editor/{editor,syntax,cursor,output}.rs):
row/buffer storage with tab-expanded rendering, the incremental syntax highlighter with
cross-row block-comment propagation, the cursor/viewport mapper, and the incremental
search engine.  Strings are modelled as `List Char` (the sources operate on ASCII byte
slices and cast bytes to chars), `usize` as `Nat`.  Rust `Vec` indexing panics are noted
where the model is total.
-/

set_option linter.unusedVariables false
set_option linter.unnecessarySeqFocus false

namespace Vimrs

/-- Terminal colors, standing in for `crossterm::style::Color` values used by the
keyword tables (`syntax.rs`). -/
inductive TermColor
  | red | reset | cyan | blue | green | yellow | darkGrey
deriving DecidableEq, Repr

/-- Model of `HighlightType` from syntax.rs. -/
inductive HighlightType
  | Normal
  | Number
  | SearchMatch
  | DoubleQuoteString
  | SingleQuoteString
  | Comment
  | MultilineComment
  | Other (color : TermColor)
deriving DecidableEq, Repr

/-- Model of `Row` from editor.rs: logical content, tab-expanded render, per-render-char tags,
and the block-comment continuation flag (`is_comment`). -/
structure Row where
  row_content : List Char
  render : List Char
  highlight : List HighlightType
  is_comment : Bool
deriving DecidableEq, Repr

/-- Model of `CONFIG.spaces_per_tab` from lib.rs. -/
def spaces_per_tab : Nat := 2

/- Small total list primitives mirroring `Vec` operations.  Rust panics on an
out-of-range index; the models return the list unchanged there (all callers in the
sources guarantee in-range indices). -/

/-- Model of `Vec::insert(n, a)`: insert before position `n` (`n = len` appends;
`n > len` panics in Rust, modelled as the unchanged list). -/
def listInsertAt : Nat → α → List α → List α
  | 0, a, l => a :: l
  | _ + 1, _, [] => []
  | n + 1, a, x :: xs => x :: listInsertAt n a xs

/-- Model of in-place mutation of the element at index `n` (`&mut v[n]`). -/
def listModifyAt (f : α → α) : Nat → List α → List α
  | _, [] => []
  | 0, x :: xs => f x :: xs
  | n + 1, x :: xs => x :: listModifyAt f n xs

/-- Model of `Vec::remove(n)` (out of range: unchanged; Rust panics). -/
def listRemoveAt : Nat → List α → List α
  | _, [] => []
  | 0, _ :: xs => xs
  | n + 1, x :: xs => x :: listRemoveAt n xs

/-- Model of `v.get(n)` / checked indexing. -/
def listGet? : Nat → List α → Option α
  | _, [] => none
  | 0, x :: _ => some x
  | n + 1, _ :: xs => listGet? n xs

/-- One source character of `EditorRows::render_row` (editor.rs): `index` counts
characters already accounted for; a tab pushes one space then pads with spaces until
`index % spaces_per_tab == 0`. -/
def render_row_go : List Char → Nat → List Char
  | [], _ => []
  | c :: rest, index =>
    let index1 := index + 1
    if c = '\t' then
      let pad := (spaces_per_tab - index1 % spaces_per_tab) % spaces_per_tab
      (' ' :: List.replicate pad ' ') ++ render_row_go rest (index1 + pad)
    else
      c :: render_row_go rest index1

/-- Model of `EditorRows::render_row` (editor.rs): rebuild `render` from `row_content`. -/
def render_row (content : List Char) : List Char := render_row_go content 0

/-- The fold step of `CursorController::get_render_x` (cursor.rs): a tab advances
`render_x + (spaces_per_tab - 1) - (render_x % spaces_per_tab) + 1`, any other
character advances by 1. -/
def render_x_step (render_x : Nat) (c : Char) : Nat :=
  if c = '\t' then render_x + (spaces_per_tab - 1) - (render_x % spaces_per_tab) + 1
  else render_x + 1

/-- Model of `CursorController::get_render_x` (cursor.rs): fold over `row_content[..cursor_x]`
starting from the literal initial accumulator `4` in the source. -/
def get_render_x (row : Row) (cursor_x : Nat) : Nat :=
  (row.row_content.take cursor_x).foldl render_x_step 4

/-- Model of `Row::get_row_content_x` (editor.rs): walk logical characters accumulating render
width until it exceeds the target render column; falls off the end returning 0. -/
def get_row_content_x_go : List Char → Nat → Nat → Nat → Nat
  | [], _, _, _ => 0
  | c :: rest, cursor_x, current_render_x, render_x =>
    let cur1 :=
      if c = '\t' then
        current_render_x + (spaces_per_tab - 1) - (current_render_x % spaces_per_tab)
      else current_render_x
    let cur2 := cur1 + 1
    if render_x < cur2 then cursor_x
    else get_row_content_x_go rest (cursor_x + 1) cur2 render_x

/-- Model of `Row::get_row_content_x` (editor.rs). -/
def get_row_content_x (row : Row) (render_x : Nat) : Nat :=
  get_row_content_x_go row.row_content 0 0 render_x

/-- Model of `SyntaxHighlight::is_separator` (syntax.rs): whitespace or one of a fixed
punctuation set.  (Rust uses Unicode `char::is_whitespace`; `Char.isWhitespace`
agrees on the ASCII whitespace the editor manipulates.) -/
def is_separator (c : Char) : Bool :=
  c.isWhitespace ||
    [',', '.', '(', ')', '+', '-', '/', '*', '=', '~', '%', '<', '>', '"', '\'', ';', '&'].contains c

/-- The per-language data bound by the `syntax_struct!` macro (syntax.rs): line-comment
marker, optional block-comment `(start, end)` pair, and the keyword table flattened in
group order (each word with its group's color). -/
structure LangDef where
  comment_start : List Char
  multiline_comment : Option (List Char × List Char)
  keywords : List (TermColor × List Char)
deriving DecidableEq, Repr

def rustKeywordsRed : List String :=
  ["mod", "unsafe", "extern", "crate", "use", "type", "struct", "enum", "union",
   "const", "static", "mut", "let", "if", "else", "impl", "trait", "for", "fn",
   "self", "Self", "while", "true", "false", "in", "continue", "break", "loop", "match"]

def rustKeywordsReset : List String :=
  ["isize", "i8", "i16", "i32", "i64", "usize", "u8", "u16", "u32", "u64",
   "f32", "f64", "char", "str", "bool"]

/-- Model of `RustHighlight` (syntax.rs): `comment_start: "//"`, block comments `/* ... */`,
the two keyword groups colored Red and Reset. -/
def rustHighlight : LangDef :=
  { comment_start := "//".data
  , multiline_comment := some ("/*".data, "*/".data)
  , keywords :=
      rustKeywordsRed.map (fun w => (TermColor.red, w.data)) ++
        rustKeywordsReset.map (fun w => (TermColor.reset, w.data)) }

/-- Model of `PlainTextHighlight` (syntax.rs): comment marker `~`, no block comments, no keywords. -/
def plainTextHighlight : LangDef :=
  { comment_start := "~".data, multiline_comment := none, keywords := [] }

/-- The keyword branch of `update_syntax` (syntax.rs lines 214-230): try each
configured keyword in table order; it fires when the char just after the span is a
separator (or the span ends exactly at end-of-row) and the upcoming slice equals the
word. -/
def findKeyword (kws : List (TermColor × List Char)) (render : List Char) (i : Nat) :
    Option (TermColor × List Char) :=
  match kws with
  | [] => none
  | (color, w) :: rest =>
    let e := i + w.length
    let is_end_or_sep :=
      match listGet? e render with
      | some c => is_separator c
      | none => decide (e = render.length)
    if is_end_or_sep && w.isPrefixOf (render.drop i) then some (color, w)
    else findKeyword rest render i

/-- The outcome of one iteration of the `while` loop in `update_syntax`:
`brk` models the `break` after tagging the rest of the row as line comment;
`adv n tags ps is ic` models pushing `tags` (in order) onto `highlight`, advancing
`i` by `n`, and continuing with the new `previous_separater` / `in_string` /
`in_comment` state. -/
inductive StepRes
  | brk (tags : List HighlightType)
  | adv (n : Nat) (tags : List HighlightType) (prevSep : Bool) (inStr : Option Char)
      (inCom : Bool)
deriving DecidableEq, Repr

/-- The string / number / keyword / default part of the loop body of `update_syntax`
(syntax.rs lines 178-233), reached when neither the line-comment nor the
block-comment branch consumed the character `c` at index `i`. -/
def scanStep2 (S : LangDef) (render : List Char) (i : Nat) (c : Char) (prevSep : Bool)
    (inStr : Option Char) (inCom : Bool) (prevHl : HighlightType) : StepRes :=
  match inStr with
  | some val =>
    let sh := if val = '"' then HighlightType.DoubleQuoteString
      else HighlightType.SingleQuoteString
    if c = '\\' ∧ i + 1 < render.length then
      StepRes.adv 2 [sh, sh] prevSep inStr inCom
    else
      StepRes.adv 1 [sh] true (if val = c then none else inStr) inCom
  | none =>
    if (c = '"' ∨ c = '\'') ∧ (render.drop (i + 1)).contains c ∧ prevSep then
      let sh := if c = '"' then HighlightType.DoubleQuoteString
        else HighlightType.SingleQuoteString
      StepRes.adv 1 [sh] prevSep (some c) inCom
    else if (c.isDigit ∧ (prevSep ∨ prevHl = HighlightType.Number))
        ∨ (c = '.' ∧ prevHl = HighlightType.Number) then
      StepRes.adv 1 [HighlightType.Number] false inStr inCom
    else
      match (if prevSep then findKeyword S.keywords render i else none) with
      | some (color, w) =>
        StepRes.adv w.length (List.replicate w.length (HighlightType.Other color))
          false inStr inCom
      | none => StepRes.adv 1 [HighlightType.Normal] (is_separator c) inStr inCom

/-- One full iteration of the `while` loop of `update_syntax` (syntax.rs lines
135-234) at index `i` holding character `c`: first the line-comment check, then the
block-comment machinery, then `scanStep2`. -/
def scanStep (S : LangDef) (render : List Char) (i : Nat) (c : Char) (prevSep : Bool)
    (inStr : Option Char) (inCom : Bool) (prevHl : HighlightType) : StepRes :=
  if inStr = none ∧ S.comment_start ≠ [] ∧ inCom = false
      ∧ S.comment_start.isPrefixOf (render.drop i) then
    StepRes.brk (List.replicate (render.length - i) HighlightType.Comment)
  else
    match S.multiline_comment with
    | some (op, cl) =>
      if inStr = none then
        if inCom then
          if cl.isPrefixOf (render.drop i) then
            StepRes.adv cl.length
              (HighlightType.MultilineComment ::
                List.replicate (cl.length - 1) HighlightType.MultilineComment)
              true inStr false
          else
            StepRes.adv 1 [HighlightType.MultilineComment] prevSep inStr inCom
        else if op.isPrefixOf (render.drop i) then
          StepRes.adv op.length (List.replicate op.length HighlightType.MultilineComment)
            prevSep inStr true
        else scanStep2 S render i c prevSep inStr inCom prevHl
      else scanStep2 S render i c prevSep inStr inCom prevHl
    | none => scanStep2 S render i c prevSep inStr inCom prevHl

/-- The `while i < render.len()` loop of `update_syntax`.  `acc` is the highlight
vector built so far (its length equals `i` along every reachable trace, so
`acc.getLastD Normal` is the source's `previous_highlight`).  The loop advances `i`
by at least 1 per iteration whenever the language's markers and keywords are
non-empty, so `fuel = render.length` iterations always finish the row; the fuel-0
early return is unreachable from `scanRow` for such languages. -/
def scanLoop (S : LangDef) (render : List Char) :
    Nat → Nat → Bool → Option Char → Bool → List HighlightType →
      List HighlightType × Bool
  | 0, _, _, _, inCom, acc => (acc, inCom)
  | fuel + 1, i, prevSep, inStr, inCom, acc =>
    match listGet? i render with
    | none => (acc, inCom)
    | some c =>
      match scanStep S render i c prevSep inStr inCom (acc.getLastD HighlightType.Normal) with
      | StepRes.brk tags => (acc ++ tags, inCom)
      | StepRes.adv n tags ps is ic => scanLoop S render fuel (i + n) ps is ic (acc ++ tags)

/-- The single-row part of `update_syntax` (syntax.rs): scan the row's render seeded
with `in_comment` inherited from the previous row, returning the new highlight vector
and the final `in_comment` flag. -/
def scanRow (S : LangDef) (render : List Char) (inCom : Bool) :
    List HighlightType × Bool :=
  scanLoop S render render.length 0 true none inCom []

/-- Model of `update_syntax` (syntax.rs) including its cross-row recursion: rewrite row `at`'s
highlight and `is_comment`; if the flag changed and a next row exists, re-run on it.
`fuel` bounds the recursion depth (`update_syntax_at` supplies `rows.length`, which
is always enough since the index strictly increases).  An out-of-range index returns
the buffer unchanged (Rust would panic; all call sites pass valid indices). -/
def update_syntax_go (S : LangDef) : Nat → Nat → List Row → List Row
  | 0, _, rows => rows
  | fuel + 1, idx, rows =>
    match listGet? idx rows with
    | none => rows
    | some row =>
      let inCom0 := decide (0 < idx) && (((listGet? (idx - 1) rows).map Row.is_comment).getD false)
      let res := scanRow S row.render inCom0
      let changed := row.is_comment != res.2
      let rows' := listModifyAt (fun r => { r with highlight := res.1, is_comment := res.2 }) idx rows
      if changed && idx + 1 < rows'.length then update_syntax_go S fuel (idx + 1) rows'
      else rows'

/-- Model of `update_syntax(at, rows)` with enough fuel for the full propagation run. -/
def update_syntax_at (S : LangDef) (idx : Nat) (rows : List Row) : List Row :=
  update_syntax_go S rows.length idx rows

/-- Model of `Row::new` followed by `EditorRows::render_row`, as done by `insert_row` and
`from_file` (editor.rs): fresh rows carry an empty highlight vector. -/
def mkRow (content : List Char) : Row :=
  { row_content := content, render := render_row content, highlight := [], is_comment := false }

/-- Model of `EditorRows::insert_row(at, contents)` (editor.rs). -/
def insert_row (rows : List Row) (idx : Nat) (contents : List Char) : List Row :=
  listInsertAt idx (mkRow contents) rows

/-- Model of `Row::insert_character` (editor.rs): insert into `row_content`, then re-render. -/
def row_insert_character (r : Row) (idx : Nat) (c : Char) : Row :=
  let content := listInsertAt idx c r.row_content
  { r with row_content := content, render := render_row content }

/-- Model of `Row::delete_character` (editor.rs): remove from `row_content`, then re-render. -/
def row_delete_character (r : Row) (idx : Nat) : Row :=
  let content := listRemoveAt idx r.row_content
  { r with row_content := content, render := render_row content }

/-- Model of `EditorRows::join_adjacent_rows(at)` (editor.rs): remove row `at`, append its
content onto row `at - 1`, re-render the merged row.  (Rust panics for `at = 0` or an
out-of-range `at`; callers guard both.) -/
def join_adjacent_rows (rows : List Row) (idx : Nat) : List Row :=
  match listGet? idx rows with
  | none => rows
  | some cur =>
    let rows' := listRemoveAt idx rows
    listModifyAt
      (fun prev =>
        let content := prev.row_content ++ cur.row_content
        { prev with row_content := content, render := render_row content })
      (idx - 1) rows'

/-- The slice of editor state the content mutations in output.rs touch: the buffer and
the logical cursor.  (The dirty flag, viewport, and status message are orthogonal to
the properties proved here and are omitted.) -/
structure EState where
  rows : List Row
  cursor_x : Nat
  cursor_y : Nat
deriving DecidableEq, Repr

/-- Model of `Output::insert_character` (output.rs) with an active syntax highlighter: append a
fresh empty row when the cursor sits on the append line, insert the character,
re-highlight the cursor row, advance the cursor. -/
def o_insert_character (S : LangDef) (st : EState) (ch : Char) : EState :=
  let rows0 :=
    if st.cursor_y = st.rows.length then insert_row st.rows st.rows.length []
    else st.rows
  let rows1 := listModifyAt (fun r => row_insert_character r st.cursor_x ch) st.cursor_y rows0
  let rows2 := update_syntax_at S st.cursor_y rows1
  { rows := rows2, cursor_x := st.cursor_x + 1, cursor_y := st.cursor_y }

/-- Model of `Output::delete_character` (output.rs) with an active syntax highlighter: no-op on
the append line or at the buffer start; otherwise delete before the cursor, or join
with the previous row when at column 0; then re-highlight the (new) cursor row. -/
def o_delete_character (S : LangDef) (st : EState) : EState :=
  if st.cursor_y = st.rows.length then st
  else if st.cursor_y = 0 ∧ st.cursor_x = 0 then st
  else if 0 < st.cursor_x then
    let rows1 := listModifyAt (fun r => row_delete_character r (st.cursor_x - 1)) st.cursor_y st.rows
    let rows2 := update_syntax_at S st.cursor_y rows1
    { rows := rows2, cursor_x := st.cursor_x - 1, cursor_y := st.cursor_y }
  else
    let prevLen := (((listGet? (st.cursor_y - 1) st.rows).map Row.row_content).getD []).length
    let rows1 := join_adjacent_rows st.rows st.cursor_y
    let rows2 := update_syntax_at S (st.cursor_y - 1) rows1
    { rows := rows2, cursor_x := prevLen, cursor_y := st.cursor_y - 1 }

/-- Model of `Output::insert_newline` (output.rs) with an active syntax highlighter: at column
0 insert an empty row above; otherwise truncate the cursor row at the cursor column,
insert the remainder below, and re-highlight both rows.  The cursor moves to the start
of the next line. -/
def o_insert_newline (S : LangDef) (st : EState) : EState :=
  let rows2 :=
    if st.cursor_x = 0 then insert_row st.rows st.cursor_y []
    else
      let rest := (((listGet? st.cursor_y st.rows).map Row.row_content).getD []).drop st.cursor_x
      let rows1 := listModifyAt
        (fun r =>
          let content := r.row_content.take st.cursor_x
          { r with row_content := content, render := render_row content })
        st.cursor_y st.rows
      let rows1b := insert_row rows1 (st.cursor_y + 1) rest
      update_syntax_at S (st.cursor_y + 1) (update_syntax_at S st.cursor_y rows1b)
  { rows := rows2, cursor_x := 0, cursor_y := st.cursor_y + 1 }

/-- Model of `EditorRows::from_file` (editor.rs) past the I/O boundary: fold over the loaded
line list, rendering each new row and running `update_syntax` on its index (the active
highlighter case). -/
def load_rows (S : LangDef) (lines : List (List Char)) : List Row :=
  lines.foldl (fun acc line => update_syntax_at S acc.length (acc ++ [mkRow line])) []

/-- Model of `CursorController` (cursor.rs). -/
structure CursorController where
  cursor_x : Nat
  cursor_y : Nat
  screen_columns : Nat
  screen_rows : Nat
  row_offset : Nat
  column_offset : Nat
  render_x : Nat
deriving DecidableEq, Repr

/-- Model of `CursorController::scroll` (cursor.rs): recompute `render_x` (0 when on the append
line), clamp `row_offset` down to the cursor row then up when the cursor falls below
the window bottom, and the same two-sided clamp for `column_offset` against
`render_x`. -/
def scroll (cc : CursorController) (rows : List Row) : CursorController :=
  let rx :=
    match listGet? cc.cursor_y rows with
    | some row => get_render_x row cc.cursor_x
    | none => 0
  let ro1 := min cc.row_offset cc.cursor_y
  let ro2 := if ro1 + cc.screen_rows ≤ cc.cursor_y then cc.cursor_y - cc.screen_rows + 1 else ro1
  let co1 := min cc.column_offset rx
  let co2 := if co1 + cc.screen_columns ≤ rx then rx - cc.screen_columns + 1 else co1
  { cc with render_x := rx, row_offset := ro2, column_offset := co2 }

/-- Model of `SearchDirection` (output.rs). -/
inductive SearchDirection
  | forward | backward
deriving DecidableEq, Repr

/-- Model of `SearchIndex` (output.rs). -/
structure SearchIndex where
  x_index : Nat
  y_index : Nat
  x_direction : Option SearchDirection
  y_direction : Option SearchDirection
  previous_highlight : Option (Nat × List HighlightType)
deriving DecidableEq, Repr

/-- Model of `SearchIndex::new` and `SearchIndex::reset` both produce this state. -/
def SearchIndex.fresh : SearchIndex :=
  { x_index := 0, y_index := 0, x_direction := none, y_direction := none,
    previous_highlight := none }

/-- The key classes `find_callback` distinguishes: Enter, Escape, the four arrows, and
anything else (query edits included). -/
inductive SKey
  | enter | esc | down | up | left | right | other
deriving DecidableEq, Repr

/-- Model of `str::find(keyword)` on a render slice (byte = char index on the ASCII rows the
editor manipulates): index of the first occurrence. -/
def findSub (needle : List Char) : List Char → Option Nat
  | [] => if needle = [] then some 0 else none
  | c :: rest =>
    if needle.isPrefixOf (c :: rest) then some 0
    else (findSub needle rest).map (· + 1)

/-- Model of `str::rfind(keyword)`: index of the last occurrence. -/
def rfindSub (needle hay : List Char) : Option Nat :=
  ((List.range (hay.length + 1)).filter (fun k => needle.isPrefixOf (hay.drop k))).getLast?

/-- Overwrite `highlight[a..b]` with the search-match tag (the `for_each` at
output.rs line 142). -/
def overlayMatch (hl : List HighlightType) (a b : Nat) : List HighlightType :=
  (List.range hl.length).zipWith
    (fun j h => if a ≤ j ∧ j < b then HighlightType.SearchMatch else h) hl

/-- The `for i in 0..row_count` scan of `find_callback` (output.rs lines 95-152).
`i` is the loop counter and `count` the remaining iterations (`find_step` starts it at
`rows.length`).  Mutations of `si.y_index` made while scanning persist, exactly as in
the source; the result carries the possibly-updated `SearchIndex` and the hit
`(row_index, render_index)` if the loop matched. -/
def searchLoop (rows : List Row) (kw : List Char) :
    SearchIndex → Nat → Nat → SearchIndex × Option (Nat × Nat)
  | si, _, 0 => (si, none)
  | si, i, count + 1 =>
    let yres : Option (SearchIndex × Nat) :=
      match si.y_direction with
      | none =>
        let si' := if si.x_direction = none then { si with y_index := i } else si
        some (si', si'.y_index)
      | some SearchDirection.forward => some (si, si.y_index + i + 1)
      | some SearchDirection.backward =>
        let res := si.y_index - i
        if res = 0 then none else some (si, res - 1)
    match yres with
    | none => (si, none)
    | some (si, row_index) =>
      if rows.length - 1 < row_index then (si, none)
      else
        match listGet? row_index rows with
        | none => (si, none)
        | some row =>
          let xres : Option (Option Nat) :=
            match si.x_direction with
            | none => some (findSub kw row.render)
            | some dir =>
              let idx :=
                if dir = SearchDirection.forward then
                  let start := min row.render.length (si.x_index + 1)
                  (findSub kw (row.render.drop start)).map (· + start)
                else rfindSub kw (row.render.take si.x_index)
              if idx = none then none else some idx
          match xres with
          | none => (si, none)
          | some none => searchLoop rows kw si (i + 1) count
          | some (some idx) => (si, some (row_index, idx))

/-- The observable outcome of one `find_callback` invocation: the buffer (highlight
overlay applied or restored), the cursor controller, the search state, and — for
stating frame properties — the hit the scan produced (`none` when nothing matched or
the search ended). -/
structure FindResult where
  rows : List Row
  cc : CursorController
  si : SearchIndex
  hit : Option (Nat × Nat)
deriving DecidableEq, Repr

/-- Model of `Output::find_callback` (output.rs): restore the previously overlaid highlight
slice; on Enter/Escape reset the search state; otherwise re-derive the directions from
the key, scan, and on a hit snapshot the row's highlight, overlay the match, move the
cursor there and force the viewport to re-clamp (`row_offset := rows.length`). -/
def find_core (rows : List Row) (cc : CursorController) (si : SearchIndex)
    (kw : List Char) (key : SKey) : FindResult :=
  let restored : List Row × SearchIndex :=
    match si.previous_highlight with
    | some (idx, hl) =>
      (listModifyAt (fun r => { r with highlight := hl }) idx rows,
        { si with previous_highlight := none })
    | none => (rows, si)
  let rows := restored.1
  let si := restored.2
  match key with
  | SKey.enter => { rows := rows, cc := cc, si := SearchIndex.fresh, hit := none }
  | SKey.esc => { rows := rows, cc := cc, si := SearchIndex.fresh, hit := none }
  | _ =>
    let si := { si with y_direction := none, x_direction := none }
    let si :=
      match key with
      | SKey.down => { si with y_direction := some SearchDirection.forward }
      | SKey.up => { si with y_direction := some SearchDirection.backward }
      | SKey.left => { si with x_direction := some SearchDirection.backward }
      | SKey.right => { si with x_direction := some SearchDirection.forward }
      | _ => si
    match searchLoop rows kw si 0 rows.length with
    | (si, none) => { rows := rows, cc := cc, si := si, hit := none }
    | (si, some (row_index, idx)) =>
      match listGet? row_index rows with
      | none => { rows := rows, cc := cc, si := si, hit := none }
      | some row =>
        let si' := { si with
          previous_highlight := some (row_index, row.highlight),
          y_index := row_index, x_index := idx }
        let rows' := listModifyAt
          (fun r => { r with highlight := overlayMatch r.highlight idx (idx + kw.length) })
          row_index rows
        let cc' := { cc with
          cursor_y := row_index,
          cursor_x := get_row_content_x row idx,
          row_offset := rows.length }
        { rows := rows', cc := cc', si := si', hit := some (row_index, idx) }

/-- Modelled from the spec: the `prompt!` macro (the modal input loop that feeds
each key to `find_callback`) is not among the repository's source files.  Per the
spec it ends on Enter or Escape after one last callback invocation with that key,
and its result is `none` exactly when the prompt was abandoned with Escape
(cancellation "discards accumulated input and restores prior cursor/search state"),
`some` of the accepted input on Enter. -/
def prompt_result (kw : List Char) (key : SKey) : Option (List Char) :=
  match key with
  | SKey.esc => none
  | _ => some kw

/-- Model of `Output::find` (output.rs lines 157-167) at the moment the search ends:
`find` saved the cursor controller before opening the prompt (`saved`); the
terminating key reaches `find_callback` once more, and when the prompt's result is
`None` (Escape) the saved cursor controller is written back, discarding the cursor
position of the last accepted match. -/
def find_end (saved : CursorController) (rows : List Row) (cc : CursorController)
    (si : SearchIndex) (kw : List Char) (key : SKey) : FindResult :=
  let res := find_core rows cc si kw key
  match prompt_result kw key with
  | none => { res with cc := saved }
  | some _ => res

/-- The render-column fold as the spec words it, for comparison with the source's
`get_render_x`: fold over the characters before the column starting from zero, a tab
advancing to the next multiple of the tab width, everything else advancing by 1. -/
def spec_render_x_step (render_x : Nat) (c : Char) : Nat :=
  if c = '\t' then render_x + (spaces_per_tab - render_x % spaces_per_tab)
  else render_x + 1

/-- The 0-based render column of a logical column per the spec's words (no left
margin included). -/
def spec_render_x (content : List Char) (cursor_x : Nat) : Nat :=
  (content.take cursor_x).foldl spec_render_x_step 0

/-- The highlighter post-condition asserted in `update_syntax`
(`assert_eq!(render.len(), highlight.len())`). -/
def RowOK (r : Row) : Prop := r.highlight.length = r.render.length

instance (r : Row) : Decidable (RowOK r) := inferInstanceAs (Decidable (_ = _))

/-- Every row of the buffer satisfies the highlight/render length invariant. -/
def BufOK (rows : List Row) : Prop := ∀ r ∈ rows, RowOK r

instance (rows : List Row) : Decidable (BufOK rows) :=
  inferInstanceAs (Decidable (∀ r ∈ rows, RowOK r))

/-- Boolean well-formedness of a language definition: non-empty block-comment markers
and non-empty keywords. -/
def langWFb (S : LangDef) : Bool :=
  (match S.multiline_comment with
   | some (op, cl) => decide (0 < op.length) && decide (0 < cl.length)
   | none => true) &&
    S.keywords.all (fun p => decide (0 < (Prod.snd p).length))

/-- Well-formedness of a language definition.  Both registered languages with these
features satisfy it; it is what makes every iteration of the `update_syntax` loop
advance. -/
def LangWF (S : LangDef) : Prop := langWFb S = true

instance (S : LangDef) : Decidable (LangWF S) := inferInstanceAs (Decidable (_ = _))

/-- Projection of `join_adjacent_rows` to the level of row contents. -/
def joinContents (L : List (List Char)) (idx : Nat) : List (List Char) :=
  match listGet? idx L with
  | none => L
  | some cur => listModifyAt (· ++ cur) (idx - 1) (listRemoveAt idx L)

/- Concrete fixtures for the testable-property scenarios. -/

/-- A row whose content has a leading tab (`"\tA"`). -/
def tabARow : Row := mkRow "\tA".data

/-- A plain row with an all-`Normal` highlight, as produced by highlighting
keyword-free text. -/
def normalRow (s : String) : Row :=
  { row_content := s.data
  , render := render_row s.data
  , highlight := List.replicate (render_row s.data).length HighlightType.Normal
  , is_comment := false }

/-- The two-row buffer `["foo", "foo"]` of the search scenario. -/
def fooBuffer : List Row := [normalRow "foo", normalRow "foo"]

/-- A two-row buffer used for the no-match scenario. -/
def abBuffer : List Row := [normalRow "a", normalRow "b"]

/-- A cursor controller over an 80x24 window at the origin. -/
def cc80x24 : CursorController :=
  { cursor_x := 0, cursor_y := 0, screen_columns := 80, screen_rows := 24,
    row_offset := 0, column_offset := 0, render_x := 0 }

/-- The rows `["/* start", "middle", "end */ code"]` before any highlighting. -/
def c3Rows : List Row :=
  [mkRow "/* start".data, mkRow "middle".data, mkRow "end */ code".data]

/-- The block-comment propagation buffer: `update_syntax` run on row 0 of `c3Rows`,
whose flag change propagates through rows 1 and 2. -/
def c3Buffer : List Row := update_syntax_at rustHighlight 0 c3Rows

/-- Deleting the two characters `/*` at the start of row 0 of `c3Buffer` via
`Output::delete_character` (cursor after the marker), which re-highlights from row 0
each time. -/
def c3Edited : List Row :=
  (o_delete_character rustHighlight
    (o_delete_character rustHighlight { rows := c3Buffer, cursor_x := 2, cursor_y := 0 })).rows

/-- Step 1 of the search scenario: undirected incremental search for `"foo"`. -/
def c4Step1 : FindResult :=
  find_core fooBuffer cc80x24 SearchIndex.fresh "foo".data SKey.other

/-- Step 2: press Down and rescan. -/
def c4Step2 : FindResult :=
  find_core c4Step1.rows c4Step1.cc c4Step1.si "foo".data SKey.down

/-- Step 3: press Up from the row-1 match. -/
def c4Step3 : FindResult :=
  find_core c4Step2.rows c4Step2.cc c4Step2.si "foo".data SKey.up

/-- A search session over `["bar", "foo"]` whose only match sits on row 1: the
undirected scan for `"foo"` moves the cursor there. -/
def c8Session : FindResult :=
  find_core [normalRow "bar", normalRow "foo"] cc80x24 SearchIndex.fresh
    "foo".data SKey.other

/-- A render line holding a double-quoted string whose body is a single quote:
`"'"`. -/
def quoteQuoteRow : List Char := "\"'\"".data

/-! ### Facts about the list primitives -/

theorem listGet?_lt_length {l : List α} {n : Nat} {a : α} (h : listGet? n l = some a) :
    n < l.length := by
  induction l generalizing n with
  | nil => simp [listGet?] at h
  | cons x xs ih =>
    cases n with
    | zero => simp
    | succ n =>
      have := ih (n := n) h
      simpa [Nat.succ_lt_succ_iff] using this

theorem listGet?_none_length {l : List α} {n : Nat} (h : listGet? n l = none) :
    l.length ≤ n := by
  induction l generalizing n with
  | nil => simp
  | cons x xs ih =>
    cases n with
    | zero => simp [listGet?] at h
    | succ n =>
      have := ih (n := n) h
      simpa [Nat.succ_le_succ_iff] using this

theorem listGet?_mem {l : List α} {n : Nat} {a : α} (h : listGet? n l = some a) :
    a ∈ l := by
  induction l generalizing n with
  | nil => simp [listGet?] at h
  | cons x xs ih =>
    cases n with
    | zero =>
      simp only [listGet?, Option.some.injEq] at h
      simp [h]
    | succ n => exact List.mem_cons_of_mem _ (ih (n := n) h)

theorem mem_listGet? {l : List α} {a : α} (h : a ∈ l) :
    ∃ n, listGet? n l = some a := by
  induction l with
  | nil => simp at h
  | cons x xs ih =>
    rcases List.mem_cons.mp h with h | h
    · exact ⟨0, by simp [listGet?, h]⟩
    · obtain ⟨n, hn⟩ := ih h
      exact ⟨n + 1, by simpa [listGet?] using hn⟩

theorem listGet?_map (g : α → β) (l : List α) (n : Nat) :
    listGet? n (l.map g) = (listGet? n l).map g := by
  induction l generalizing n with
  | nil => simp [listGet?]
  | cons x xs ih =>
    cases n with
    | zero => simp [listGet?]
    | succ n => simpa [listGet?] using ih n

theorem listModifyAt_length (f : α → α) (n : Nat) (l : List α) :
    (listModifyAt f n l).length = l.length := by
  induction l generalizing n with
  | nil => simp [listModifyAt]
  | cons x xs ih =>
    cases n with
    | zero => simp [listModifyAt]
    | succ n => simpa [listModifyAt] using ih n

theorem listModifyAt_get_ne (f : α → α) {n m : Nat} (l : List α) (h : n ≠ m) :
    listGet? n (listModifyAt f m l) = listGet? n l := by
  induction l generalizing n m with
  | nil => simp [listModifyAt]
  | cons x xs ih =>
    cases m with
    | zero =>
      cases n with
      | zero => exact absurd rfl h
      | succ n => simp [listModifyAt, listGet?]
    | succ m =>
      cases n with
      | zero => simp [listModifyAt, listGet?]
      | succ n =>
        simpa [listModifyAt, listGet?] using ih (h := fun e => h (by omega))

theorem listModifyAt_get_eq (f : α → α) (m : Nat) (l : List α) :
    listGet? m (listModifyAt f m l) = (listGet? m l).map f := by
  induction l generalizing m with
  | nil => simp [listModifyAt, listGet?]
  | cons x xs ih =>
    cases m with
    | zero => simp [listModifyAt, listGet?]
    | succ m => simpa [listModifyAt, listGet?] using ih m

theorem mem_listInsertAt {l : List α} {n : Nat} {x a : α}
    (h : a ∈ listInsertAt n x l) : a = x ∨ a ∈ l := by
  induction l generalizing n with
  | nil =>
    cases n with
    | zero => simpa [listInsertAt] using h
    | succ n => simp [listInsertAt] at h
  | cons y ys ih =>
    cases n with
    | zero =>
      rcases List.mem_cons.mp h with h | h
      · exact Or.inl h
      · exact Or.inr h
    | succ n =>
      rcases List.mem_cons.mp h with h | h
      · exact Or.inr (by simp [h])
      · rcases ih (n := n) h with h | h
        · exact Or.inl h
        · exact Or.inr (List.mem_cons_of_mem _ h)

theorem mem_listRemoveAt {l : List α} {n : Nat} {a : α}
    (h : a ∈ listRemoveAt n l) : a ∈ l := by
  induction l generalizing n with
  | nil => simp [listRemoveAt] at h
  | cons y ys ih =>
    cases n with
    | zero => exact List.mem_cons_of_mem _ (by simpa [listRemoveAt] using h)
    | succ n =>
      rcases List.mem_cons.mp h with h | h
      · simp [h]
      · exact List.mem_cons_of_mem _ (ih (n := n) h)

theorem listInsertAt_get_lt {l : List α} {n m : Nat} (a : α) (h : m < n) :
    listGet? m (listInsertAt n a l) = listGet? m l := by
  induction l generalizing n m with
  | nil =>
    cases n with
    | zero => omega
    | succ n => simp [listInsertAt]
  | cons y ys ih =>
    cases n with
    | zero => omega
    | succ n =>
      cases m with
      | zero => simp [listInsertAt, listGet?]
      | succ m => simpa [listInsertAt, listGet?] using ih (n := n) (m := m) (by omega)

theorem listInsertAt_get_gt {l : List α} {n m : Nat} (a : α) (h : n < m) :
    listGet? m (listInsertAt n a l) = listGet? (m - 1) l := by
  induction l generalizing n m with
  | nil =>
    cases n with
    | zero =>
      cases m with
      | zero => omega
      | succ m => simp [listInsertAt, listGet?]
    | succ n => cases m with
      | zero => omega
      | succ m => simp [listInsertAt, listGet?]
  | cons y ys ih =>
    cases n with
    | zero =>
      cases m with
      | zero => omega
      | succ m => simp [listInsertAt, listGet?]
    | succ n =>
      cases m with
      | zero => omega
      | succ m =>
        cases m with
        | zero => omega
        | succ m =>
          have := ih (n := n) (m := m + 1) (by omega)
          simpa [listInsertAt, listGet?] using this

theorem listGet?_append_lt {l₁ l₂ : List α} {n : Nat} (h : n < l₁.length) :
    listGet? n (l₁ ++ l₂) = listGet? n l₁ := by
  induction l₁ generalizing n with
  | nil => simp at h
  | cons x xs ih =>
    cases n with
    | zero => simp [listGet?]
    | succ n => simpa [listGet?] using ih (by simpa [Nat.succ_lt_succ_iff] using h)

theorem listGet?_append_ge {l₁ l₂ : List α} {n : Nat} (h : l₁.length ≤ n) :
    listGet? n (l₁ ++ l₂) = listGet? (n - l₁.length) l₂ := by
  induction l₁ generalizing n with
  | nil => simp
  | cons x xs ih =>
    cases n with
    | zero => simp at h
    | succ n =>
      have := ih (n := n) (by simpa [Nat.succ_le_succ_iff] using h)
      simpa [listGet?, Nat.succ_sub_succ] using this

theorem listDrop_get {l : List α} {n : Nat} {a : α} (h : listGet? n l = some a) :
    l.drop n = a :: l.drop (n + 1) := by
  induction l generalizing n with
  | nil => simp [listGet?] at h
  | cons x xs ih =>
    cases n with
    | zero =>
      simp only [listGet?, Option.some.injEq] at h
      simp [h]
    | succ n => simpa using ih (n := n) h

theorem isPrefixOf_length_le {l₁ l₂ : List Char} (h : l₁.isPrefixOf l₂ = true) :
    l₁.length ≤ l₂.length := by
  induction l₁ generalizing l₂ with
  | nil => simp
  | cons x xs ih =>
    cases l₂ with
    | nil => simp [List.isPrefixOf] at h
    | cons y ys =>
      simp only [List.isPrefixOf, Bool.and_eq_true] at h
      simpa [Nat.succ_le_succ_iff] using ih h.2

theorem map_listModifyAt_comm {g : α → β} {f : α → α} {h : β → β}
    (hc : ∀ a, g (f a) = h (g a)) (n : Nat) (l : List α) :
    (listModifyAt f n l).map g = listModifyAt h n (l.map g) := by
  induction l generalizing n with
  | nil => simp [listModifyAt]
  | cons x xs ih =>
    cases n with
    | zero => simp [listModifyAt, hc]
    | succ n => simpa [listModifyAt] using ih n

theorem map_listRemoveAt (g : α → β) (n : Nat) (l : List α) :
    (listRemoveAt n l).map g = listRemoveAt n (l.map g) := by
  induction l generalizing n with
  | nil => simp [listRemoveAt]
  | cons x xs ih =>
    cases n with
    | zero => simp [listRemoveAt]
    | succ n => simpa [listRemoveAt] using ih n

theorem map_listInsertAt (g : α → β) (n : Nat) (a : α) (l : List α) :
    (listInsertAt n a l).map g = listInsertAt n (g a) (l.map g) := by
  induction l generalizing n with
  | nil =>
    cases n with
    | zero => simp [listInsertAt]
    | succ n => simp [listInsertAt]
  | cons x xs ih =>
    cases n with
    | zero => simp [listInsertAt]
    | succ n => simpa [listInsertAt] using ih n

/-! ### Language well-formedness accessors -/

theorem LangWF.ml_pos {S : LangDef} (h : LangWF S) {op cl : List Char}
    (hml : S.multiline_comment = some (op, cl)) :
    0 < op.length ∧ 0 < cl.length := by
  unfold LangWF langWFb at h
  rw [hml] at h
  simp only [Bool.and_eq_true, decide_eq_true_eq] at h
  exact h.1

theorem LangWF.kw_pos {S : LangDef} (h : LangWF S) {p : TermColor × List Char}
    (hp : p ∈ S.keywords) : 0 < (Prod.snd p).length := by
  unfold LangWF langWFb at h
  simp only [Bool.and_eq_true, List.all_eq_true, decide_eq_true_eq] at h
  exact h.2 p hp

/-! ### C2: the render-column mapping -/

theorem render_x_step_shift (x : Nat) (c : Char) :
    render_x_step (x + 4) c = spec_render_x_step x c + 4 := by
  unfold render_x_step spec_render_x_step spaces_per_tab
  have hx : (x + 4) % 2 = x % 2 := by omega
  have hlt : x % 2 < 2 := Nat.mod_lt _ (by omega)
  by_cases hc : c = '\t' <;> simp [hc] <;> omega

theorem foldl_render_x_shift (l : List Char) :
    ∀ x : Nat, l.foldl render_x_step (x + 4) = l.foldl spec_render_x_step x + 4 := by
  induction l with
  | nil => intro x; simp
  | cons c cs ih =>
    intro x
    simp only [List.foldl_cons, render_x_step_shift]
    exact ih _

/-- C2 (corrected): the source's `get_render_x` is not the 0-based spec fold — it
starts the fold at 4, the width of the `"{:>3} "` line-number gutter drawn by
`draw_rows`, so it returns `4 +` the 0-based render column; in particular on the row
`"\tA"` at logical column 1 it returns 6, not 2. -/
theorem c2_get_render_x_gutter (row : Row) (cursor_x : Nat) :
    get_render_x row cursor_x = 4 + spec_render_x row.row_content cursor_x
      ∧ get_render_x tabARow 1 = 6 := by
  constructor
  · unfold get_render_x spec_render_x
    have := foldl_render_x_shift (row.row_content.take cursor_x) 0
    simpa [Nat.add_comm] using this
  · decide

/-- C2 counterexample: the claim's value 2 is wrong at the claimed input — the code
returns 6 on `"\tA"` at logical column 1 (tab width 2, fold seeded with the 4-column
gutter). -/
theorem c2_counterexample :
    get_render_x tabARow 1 = 6 ∧ ¬ get_render_x tabARow 1 = 2 := by
  decide

/-! ### C6: scroll -/

/-- C6: `scroll` recomputes `render_x`, clamps `row_offset` down to
`min(row_offset, cursor_y)` and up to `cursor_y - screen_rows + 1` when the cursor
falls below the window bottom, applies the same two-sided clamp to `column_offset`
against `render_x`; in consequence the cursor always ends visible (for a positive
window), and moving the cursor to row `screen_rows + 5` from a viewport showing the
top of the buffer leaves `cursor_y - row_offset = screen_rows - 1` exactly. -/
theorem c6_scroll_clamps (cc : CursorController) (rows : List Row) :
    (scroll cc rows).render_x =
        (match listGet? cc.cursor_y rows with
         | some row => get_render_x row cc.cursor_x
         | none => 0)
      ∧ (scroll cc rows).row_offset =
          (if min cc.row_offset cc.cursor_y + cc.screen_rows ≤ cc.cursor_y
           then cc.cursor_y - cc.screen_rows + 1
           else min cc.row_offset cc.cursor_y)
      ∧ (scroll cc rows).column_offset =
          (if min cc.column_offset (scroll cc rows).render_x + cc.screen_columns
                ≤ (scroll cc rows).render_x
           then (scroll cc rows).render_x - cc.screen_columns + 1
           else min cc.column_offset (scroll cc rows).render_x)
      ∧ (1 ≤ cc.screen_rows →
          (scroll cc rows).row_offset ≤ cc.cursor_y
            ∧ cc.cursor_y < (scroll cc rows).row_offset + cc.screen_rows)
      ∧ (cc.cursor_y = cc.screen_rows + 5 → cc.row_offset ≤ 5 → 1 ≤ cc.screen_rows →
          cc.cursor_y - (scroll cc rows).row_offset = cc.screen_rows - 1) := by
  unfold scroll
  dsimp only
  refine ⟨rfl, rfl, rfl, ?_, ?_⟩
  · intro h1
    constructor
    · split <;> omega
    · split <;> omega
  · intro hy hro h1
    split <;> omega

/-- Witness for C6 at a concrete viewport: a 24-row window with the cursor on row 29
scrolls so that the cursor sits on the last visible line. -/
theorem c6_witness :
    29 - (scroll { cc80x24 with cursor_y := 29 } []).row_offset = 23 := by
  have h := (c6_scroll_clamps { cc80x24 with cursor_y := 29 } []).2.2.2.2
  exact h (by decide) (by decide) (by decide)

/-! ### The scan loop pushes exactly one tag per render character -/

theorem findKeyword_spec {kws : List (TermColor × List Char)} {render : List Char}
    {i : Nat} {color : TermColor} {w : List Char}
    (h : findKeyword kws render i = some (color, w)) :
    (color, w) ∈ kws ∧ w.isPrefixOf (render.drop i) = true := by
  induction kws with
  | nil => simp [findKeyword] at h
  | cons p rest ih =>
    obtain ⟨pc, pw⟩ := p
    unfold findKeyword at h
    dsimp only at h
    by_cases hcond : ((match listGet? (i + pw.length) render with
        | some c => is_separator c
        | none => decide (i + pw.length = render.length))
          && pw.isPrefixOf (render.drop i)) = true
    · rw [if_pos hcond] at h
      simp only [Option.some.injEq, Prod.mk.injEq] at h
      obtain ⟨h1, h2⟩ := h
      rcases Bool.and_eq_true _ _ |>.mp hcond with ⟨_, hpre⟩
      subst h1; subst h2
      exact ⟨List.mem_cons_self _ _, hpre⟩
    · rw [if_neg hcond] at h
      obtain ⟨hmem, hpre⟩ := ih h
      exact ⟨List.mem_cons_of_mem _ hmem, hpre⟩

theorem scanStep2_adv {S : LangDef} {render : List Char} {i : Nat} {c : Char}
    {ps : Bool} {is : Option Char} {ic : Bool} {ph : HighlightType}
    {n : Nat} {tags : List HighlightType} {ps' : Bool} {is' : Option Char} {ic' : Bool}
    (hWF : LangWF S) (hc : listGet? i render = some c)
    (h : scanStep2 S render i c ps is ic ph = StepRes.adv n tags ps' is' ic') :
    tags.length = n ∧ 1 ≤ n ∧ i + n ≤ render.length := by
  have hi : i < render.length := listGet?_lt_length hc
  unfold scanStep2 at h
  rcases is with _ | val
  · dsimp only at h
    by_cases hq : ((c = '"' ∨ c = '\'') ∧ (render.drop (i + 1)).contains c = true ∧ ps = true)
    · rw [if_pos hq] at h
      cases h
      exact ⟨rfl, by omega, by omega⟩
    · rw [if_neg hq] at h
      by_cases hd : ((c.isDigit = true ∧ (ps = true ∨ ph = HighlightType.Number))
          ∨ (c = '.' ∧ ph = HighlightType.Number))
      · rw [if_pos hd] at h
        cases h
        exact ⟨rfl, by omega, by omega⟩
      · rw [if_neg hd] at h
        rcases hfk : (if ps then findKeyword S.keywords render i else none) with _ | ⟨color, w⟩
        · rw [hfk] at h
          cases h
          exact ⟨rfl, by omega, by omega⟩
        · rw [hfk] at h
          cases h
          have hfk' : findKeyword S.keywords render i = some (color, w) := by
            by_cases hps : ps = true
            · rwa [if_pos hps] at hfk
            · rw [if_neg hps] at hfk; cases hfk
          obtain ⟨hmem, hpre⟩ := findKeyword_spec hfk'
          have hw1 : 0 < w.length := hWF.kw_pos hmem
          have hwle : w.length ≤ render.length - i := by
            have := isPrefixOf_length_le hpre
            simpa using this
          refine ⟨by simp, by omega, by omega⟩
  · dsimp only at h
    by_cases hesc : (c = '\\' ∧ i + 1 < render.length)
    · rw [if_pos hesc] at h
      cases h
      exact ⟨rfl, by omega, by omega⟩
    · rw [if_neg hesc] at h
      cases h
      exact ⟨rfl, by omega, by omega⟩

theorem scanStep_adv {S : LangDef} {render : List Char} {i : Nat} {c : Char}
    {ps : Bool} {is : Option Char} {ic : Bool} {ph : HighlightType}
    {n : Nat} {tags : List HighlightType} {ps' : Bool} {is' : Option Char} {ic' : Bool}
    (hWF : LangWF S) (hc : listGet? i render = some c)
    (h : scanStep S render i c ps is ic ph = StepRes.adv n tags ps' is' ic') :
    tags.length = n ∧ 1 ≤ n ∧ i + n ≤ render.length := by
  have hi : i < render.length := listGet?_lt_length hc
  unfold scanStep at h
  by_cases h1 : (is = none ∧ S.comment_start ≠ [] ∧ ic = false
      ∧ S.comment_start.isPrefixOf (render.drop i) = true)
  · rw [if_pos h1] at h; cases h
  · rw [if_neg h1] at h
    rcases hml : S.multiline_comment with _ | ⟨op, cl⟩
    · rw [hml] at h
      exact scanStep2_adv hWF hc h
    · rw [hml] at h
      dsimp only at h
      obtain ⟨hop, hcl⟩ := hWF.ml_pos hml
      by_cases h2 : is = none
      · rw [if_pos h2] at h
        by_cases h3 : ic = true
        · rw [if_pos h3] at h
          by_cases h4 : cl.isPrefixOf (render.drop i) = true
          · rw [if_pos h4] at h
            cases h
            have hclle : cl.length ≤ render.length - i := by
              have := isPrefixOf_length_le h4
              simpa using this
            refine ⟨by simp; omega, by omega, by omega⟩
          · rw [if_neg h4] at h
            cases h
            exact ⟨rfl, by omega, by omega⟩
        · rw [if_neg h3] at h
          by_cases h5 : op.isPrefixOf (render.drop i) = true
          · rw [if_pos h5] at h
            cases h
            have hople : op.length ≤ render.length - i := by
              have := isPrefixOf_length_le h5
              simpa using this
            refine ⟨by simp, by omega, by omega⟩
          · rw [if_neg h5] at h
            exact scanStep2_adv hWF hc h
      · rw [if_neg h2] at h
        exact scanStep2_adv hWF hc h

theorem scanStep_brk {S : LangDef} {render : List Char} {i : Nat} {c : Char}
    {ps : Bool} {is : Option Char} {ic : Bool} {ph : HighlightType}
    {tags : List HighlightType}
    (h : scanStep S render i c ps is ic ph = StepRes.brk tags) :
    tags.length = render.length - i := by
  unfold scanStep at h
  by_cases h1 : (is = none ∧ S.comment_start ≠ [] ∧ ic = false
      ∧ S.comment_start.isPrefixOf (render.drop i) = true)
  · rw [if_pos h1] at h
    cases h
    simp
  · rw [if_neg h1] at h
    exfalso
    rcases hml : S.multiline_comment with _ | ⟨op, cl⟩ <;> rw [hml] at h
    · unfold scanStep2 at h
      rcases is with _ | val <;> dsimp only at h
      · split at h
        · cases h
        · split at h
          · cases h
          · split at h <;> cases h
      · split at h <;> cases h
    · dsimp only at h
      by_cases h2 : is = none
      · rw [if_pos h2] at h
        by_cases h3 : ic = true
        · rw [if_pos h3] at h
          split at h <;> cases h
        · rw [if_neg h3] at h
          split at h
          · cases h
          · unfold scanStep2 at h
            rcases is with _ | val <;> dsimp only at h
            · split at h
              · cases h
              · split at h
                · cases h
                · split at h <;> cases h
            · split at h <;> cases h
      · rw [if_neg h2] at h
        unfold scanStep2 at h
        rcases is with _ | val <;> dsimp only at h
        · split at h
          · cases h
          · split at h
            · cases h
            · split at h <;> cases h
        · split at h <;> cases h

theorem scanLoop_length {S : LangDef} {render : List Char} (hWF : LangWF S) :
    ∀ (fuel i : Nat) (ps : Bool) (is : Option Char) (ic : Bool)
      (acc : List HighlightType), render.length - i ≤ fuel →
      (scanLoop S render fuel i ps is ic acc).1.length
        = acc.length + (render.length - i) := by
  intro fuel
  induction fuel with
  | zero =>
    intro i ps is ic acc hf
    unfold scanLoop
    simp only
    omega
  | succ fuel ih =>
    intro i ps is ic acc hf
    unfold scanLoop
    rcases hg : listGet? i render with _ | c
    · have := listGet?_none_length hg
      simp only
      omega
    · simp only
      rcases hs : scanStep S render i c ps is ic (acc.getLastD HighlightType.Normal) with
        tags | ⟨n, tags, ps', is', ic'⟩
      · have hlen := scanStep_brk hs
        simp [hlen]
      · obtain ⟨hta, hn1, hin⟩ := scanStep_adv hWF hg hs
        have hf' : render.length - (i + n) ≤ fuel := by omega
        have := ih (i + n) ps' is' ic' (acc ++ tags) hf'
        rw [this]
        simp [hta]
        omega

/-- The `assert_eq!(render.len(), highlight.len())` post-condition of the single-row
scan, for any well-formed language and any seed flag — empty rows included. -/
theorem scanRow_length {S : LangDef} (hWF : LangWF S) (render : List Char) (ic : Bool) :
    (scanRow S render ic).1.length = render.length := by
  unfold scanRow
  have := @scanLoop_length S render hWF render.length 0 true none ic [] (by omega)
  simpa using this

/-! ### Facts about the cross-row update -/

theorem update_syntax_go_none {S : LangDef} {fuel idx : Nat} {rows : List Row}
    (h : listGet? idx rows = none) : update_syntax_go S fuel idx rows = rows := by
  cases fuel with
  | zero => rfl
  | succ fuel =>
    unfold update_syntax_go
    rw [h]

theorem update_syntax_go_get_lt {S : LangDef} :
    ∀ (fuel idx : Nat) (rows : List Row) (j : Nat), j < idx →
      listGet? j (update_syntax_go S fuel idx rows) = listGet? j rows := by
  intro fuel
  induction fuel with
  | zero => intro idx rows j hj; rfl
  | succ fuel ih =>
    intro idx rows j hj
    unfold update_syntax_go
    rcases hg : listGet? idx rows with _ | row
    · rfl
    · dsimp only
      split
      · rw [ih (idx + 1) _ j (by omega)]
        exact listModifyAt_get_ne _ _ (by omega)
      · exact listModifyAt_get_ne _ _ (by omega)

theorem update_syntax_go_get_ok {S : LangDef} (hWF : LangWF S) :
    ∀ (fuel idx : Nat) (rows : List Row) (j : Nat),
      listGet? j (update_syntax_go S fuel idx rows) = listGet? j rows
        ∨ ∃ r', listGet? j (update_syntax_go S fuel idx rows) = some r' ∧ RowOK r' := by
  intro fuel
  induction fuel with
  | zero => intro idx rows j; exact Or.inl rfl
  | succ fuel ih =>
    intro idx rows j
    unfold update_syntax_go
    rcases hg : listGet? idx rows with _ | row
    · exact Or.inl rfl
    · dsimp only
      have hok : RowOK { row with
          highlight := (scanRow S row.render (decide (0 < idx)
            && (((listGet? (idx - 1) rows).map Row.is_comment).getD false))).1,
          is_comment := (scanRow S row.render (decide (0 < idx)
            && (((listGet? (idx - 1) rows).map Row.is_comment).getD false))).2 } := by
        unfold RowOK
        exact scanRow_length hWF _ _
      have hmod : listGet? idx (listModifyAt
          (fun r => { r with
            highlight := (scanRow S row.render (decide (0 < idx)
              && (((listGet? (idx - 1) rows).map Row.is_comment).getD false))).1,
            is_comment := (scanRow S row.render (decide (0 < idx)
              && (((listGet? (idx - 1) rows).map Row.is_comment).getD false))).2 })
          idx rows) = some { row with
            highlight := (scanRow S row.render (decide (0 < idx)
              && (((listGet? (idx - 1) rows).map Row.is_comment).getD false))).1,
            is_comment := (scanRow S row.render (decide (0 < idx)
              && (((listGet? (idx - 1) rows).map Row.is_comment).getD false))).2 } := by
        rw [listModifyAt_get_eq, hg]
        rfl
      split
      · rcases ih (idx + 1) _ j with heq | hex
        · rw [heq]
          by_cases hji : j = idx
          · subst hji
            exact Or.inr ⟨_, hmod, hok⟩
          · rw [listModifyAt_get_ne _ _ hji]
            exact Or.inl rfl
        · exact Or.inr hex
      · by_cases hji : j = idx
        · subst hji
          exact Or.inr ⟨_, hmod, hok⟩
        · rw [listModifyAt_get_ne _ _ hji]
          exact Or.inl rfl

theorem update_syntax_go_get_idx {S : LangDef} (hWF : LangWF S) {fuel idx : Nat}
    {rows : List Row} {row : Row} (hf : 0 < fuel) (hg : listGet? idx rows = some row) :
    ∃ r', listGet? idx (update_syntax_go S fuel idx rows) = some r' ∧ RowOK r' := by
  cases fuel with
  | zero => omega
  | succ fuel =>
    unfold update_syntax_go
    rw [hg]
    dsimp only
    have hok : RowOK { row with
        highlight := (scanRow S row.render (decide (0 < idx)
          && (((listGet? (idx - 1) rows).map Row.is_comment).getD false))).1,
        is_comment := (scanRow S row.render (decide (0 < idx)
          && (((listGet? (idx - 1) rows).map Row.is_comment).getD false))).2 } := by
      unfold RowOK
      exact scanRow_length hWF _ _
    have hmod : listGet? idx (listModifyAt
        (fun r => { r with
          highlight := (scanRow S row.render (decide (0 < idx)
            && (((listGet? (idx - 1) rows).map Row.is_comment).getD false))).1,
          is_comment := (scanRow S row.render (decide (0 < idx)
            && (((listGet? (idx - 1) rows).map Row.is_comment).getD false))).2 })
        idx rows) = some { row with
          highlight := (scanRow S row.render (decide (0 < idx)
            && (((listGet? (idx - 1) rows).map Row.is_comment).getD false))).1,
          is_comment := (scanRow S row.render (decide (0 < idx)
            && (((listGet? (idx - 1) rows).map Row.is_comment).getD false))).2 } := by
      rw [listModifyAt_get_eq, hg]
      rfl
    split
    · rw [update_syntax_go_get_lt fuel (idx + 1) _ idx (by omega)]
      exact ⟨_, hmod, hok⟩
    · exact ⟨_, hmod, hok⟩

theorem map_listModifyAt_invar {g : α → β} {f : α → α}
    (hc : ∀ a, g (f a) = g a) (n : Nat) (l : List α) :
    (listModifyAt f n l).map g = l.map g := by
  induction l generalizing n with
  | nil => simp [listModifyAt]
  | cons x xs ih =>
    cases n with
    | zero => simp [listModifyAt, hc]
    | succ n => simpa [listModifyAt] using ih n

theorem update_syntax_go_map_content {S : LangDef} :
    ∀ (fuel idx : Nat) (rows : List Row),
      (update_syntax_go S fuel idx rows).map Row.row_content
        = rows.map Row.row_content := by
  intro fuel
  induction fuel with
  | zero => intro idx rows; rfl
  | succ fuel ih =>
    intro idx rows
    unfold update_syntax_go
    rcases hg : listGet? idx rows with _ | row
    · rfl
    · dsimp only
      split
      · rw [ih]
        apply map_listModifyAt_invar
        intro a
        rfl
      · apply map_listModifyAt_invar
        intro a
        rfl

theorem update_syntax_go_map_render {S : LangDef} :
    ∀ (fuel idx : Nat) (rows : List Row),
      (update_syntax_go S fuel idx rows).map Row.render = rows.map Row.render := by
  intro fuel
  induction fuel with
  | zero => intro idx rows; rfl
  | succ fuel ih =>
    intro idx rows
    unfold update_syntax_go
    rcases hg : listGet? idx rows with _ | row
    · rfl
    · dsimp only
      split
      · rw [ih]
        apply map_listModifyAt_invar
        intro a
        rfl
      · apply map_listModifyAt_invar
        intro a
        rfl

theorem update_syntax_at_map_content {S : LangDef} (idx : Nat) (rows : List Row) :
    (update_syntax_at S idx rows).map Row.row_content = rows.map Row.row_content :=
  update_syntax_go_map_content rows.length idx rows

theorem update_syntax_at_map_render {S : LangDef} (idx : Nat) (rows : List Row) :
    (update_syntax_at S idx rows).map Row.render = rows.map Row.render :=
  update_syntax_go_map_render rows.length idx rows

/-- Rows untouched by `update_syntax` keep their value; rows it rewrote satisfy the
length invariant. -/
theorem update_syntax_at_get_ok {S : LangDef} (hWF : LangWF S) (idx : Nat)
    (rows : List Row) (j : Nat) :
    listGet? j (update_syntax_at S idx rows) = listGet? j rows
      ∨ ∃ r', listGet? j (update_syntax_at S idx rows) = some r' ∧ RowOK r' :=
  update_syntax_go_get_ok hWF rows.length idx rows j

theorem update_syntax_at_none {S : LangDef} {idx : Nat} {rows : List Row}
    (h : listGet? idx rows = none) : update_syntax_at S idx rows = rows :=
  update_syntax_go_none h

/-- The row `update_syntax` is called on is always rewritten and satisfies the length
invariant afterwards. -/
theorem update_syntax_at_get_idx {S : LangDef} (hWF : LangWF S) {idx : Nat}
    {rows : List Row} {row : Row} (hg : listGet? idx rows = some row) :
    ∃ r', listGet? idx (update_syntax_at S idx rows) = some r' ∧ RowOK r' := by
  have h0 : 0 < rows.length := by
    have := listGet?_lt_length hg
    omega
  exact update_syntax_go_get_idx hWF h0 hg

/-- Every row read off the buffer after an update either satisfies the invariant (it
was rewritten) or sat at an index other than the updated one and is unchanged. -/
theorem update_syntax_at_get_cases {S : LangDef} (hWF : LangWF S) (idx : Nat)
    (rows : List Row) (j : Nat) (r : Row)
    (hj : listGet? j (update_syntax_at S idx rows) = some r) :
    RowOK r ∨ (j ≠ idx ∧ listGet? j rows = some r) := by
  by_cases hji : j = idx
  · subst hji
    rcases hg : listGet? j rows with _ | row
    · rw [update_syntax_at_none hg] at hj
      rw [hj] at hg
      cases hg
    · obtain ⟨r', hr', hok⟩ := update_syntax_at_get_idx hWF hg
      rw [hj] at hr'
      cases hr'
      exact Or.inl hok
  · rcases update_syntax_at_get_ok hWF idx rows j with heq | ⟨r', hr', hok⟩
    · rw [heq] at hj
      exact Or.inr ⟨hji, hj⟩
    · rw [hj] at hr'
      cases hr'
      exact Or.inl hok

/-- If every row other than the updated one satisfies the invariant, the whole buffer
does after the update. -/
theorem update_syntax_at_BufOK {S : LangDef} (hWF : LangWF S) {idx : Nat}
    {rows : List Row}
    (h : ∀ j r', j ≠ idx → listGet? j rows = some r' → RowOK r') :
    BufOK (update_syntax_at S idx rows) := by
  intro r hr
  obtain ⟨j, hj⟩ := mem_listGet? hr
  rcases update_syntax_at_get_cases hWF idx rows j r hj with hok | ⟨hne, hj'⟩
  · exact hok
  · exact h j r hne hj'

/-! ### C1: the length invariant after each content mutation -/

theorem RowOK_mkRow_nil : RowOK (mkRow []) := by decide

theorem insert_character_BufOK {S : LangDef} (hWF : LangWF S) (st : EState) (ch : Char)
    (hB : BufOK st.rows) : BufOK (o_insert_character S st ch).rows := by
  unfold o_insert_character
  dsimp only
  apply update_syntax_at_BufOK hWF
  intro j r' hne hj
  rw [listModifyAt_get_ne _ _ hne] at hj
  have hB0 : BufOK (if st.cursor_y = st.rows.length
      then insert_row st.rows st.rows.length [] else st.rows) := by
    split
    · intro r hr
      rcases mem_listInsertAt hr with h | h
      · rw [h]
        exact RowOK_mkRow_nil
      · exact hB r h
    · exact hB
  exact hB0 r' (listGet?_mem hj)

theorem delete_character_BufOK {S : LangDef} (hWF : LangWF S) (st : EState)
    (hB : BufOK st.rows) : BufOK (o_delete_character S st).rows := by
  unfold o_delete_character
  split
  · exact hB
  · split
    · exact hB
    · split
      · dsimp only
        apply update_syntax_at_BufOK hWF
        intro j r' hne hj
        rw [listModifyAt_get_ne _ _ hne] at hj
        exact hB r' (listGet?_mem hj)
      · dsimp only
        apply update_syntax_at_BufOK hWF
        intro j r' hne hj
        unfold join_adjacent_rows at hj
        rcases hg : listGet? st.cursor_y st.rows with _ | cur <;> rw [hg] at hj
        · exact hB r' (listGet?_mem hj)
        · dsimp only at hj
          rw [listModifyAt_get_ne _ _ hne] at hj
          exact hB r' (mem_listRemoveAt (listGet?_mem hj))

theorem insert_newline_BufOK {S : LangDef} (hWF : LangWF S) (st : EState)
    (hB : BufOK st.rows) : BufOK (o_insert_newline S st).rows := by
  unfold o_insert_newline
  dsimp only
  split
  · intro r hr
    rcases mem_listInsertAt hr with h | h
    · rw [h]
      exact RowOK_mkRow_nil
    · exact hB r h
  · apply update_syntax_at_BufOK hWF
    intro j r' hne hj
    rcases update_syntax_at_get_cases hWF st.cursor_y _ j r' hj with hok | ⟨hjy, hj'⟩
    · exact hok
    · unfold insert_row at hj'
      by_cases hlt : j < st.cursor_y + 1
      · rw [listInsertAt_get_lt _ hlt] at hj'
        rw [listModifyAt_get_ne _ _ hjy] at hj'
        exact hB r' (listGet?_mem hj')
      · rw [listInsertAt_get_gt _ (by omega)] at hj'
        rw [listModifyAt_get_ne _ _ (by omega)] at hj'
        exact hB r' (listGet?_mem hj')

theorem load_rows_BufOK_aux {S : LangDef} (hWF : LangWF S) :
    ∀ (lines : List (List Char)) (acc : List Row), BufOK acc →
      BufOK (lines.foldl
        (fun acc line => update_syntax_at S acc.length (acc ++ [mkRow line])) acc) := by
  intro lines
  induction lines with
  | nil => intro acc hB; exact hB
  | cons line rest ih =>
    intro acc hB
    simp only [List.foldl_cons]
    apply ih
    apply update_syntax_at_BufOK hWF
    intro j r' hne hj
    by_cases hlt : j < acc.length
    · rw [listGet?_append_lt hlt] at hj
      exact hB r' (listGet?_mem hj)
    · rw [listGet?_append_ge (by omega)] at hj
      have hpos : 0 < j - acc.length := by omega
      rcases hd : j - acc.length with _ | k
      · omega
      · rw [hd] at hj
        simp [listGet?] at hj

theorem load_rows_BufOK {S : LangDef} (hWF : LangWF S) (lines : List (List Char)) :
    BufOK (load_rows S lines) :=
  load_rows_BufOK_aux hWF lines [] (by intro r hr; cases hr)

/-- C1: with an active highlighter over a well-formed language, every content
mutation — character insert, character delete, newline split (which also covers the
row join performed by deleting at column 0), and loading — re-establishes
`len(highlight) = len(render)` on every row of the buffer, empty rows included. -/
theorem c1_mutations_preserve_highlight_length {S : LangDef} (hWF : LangWF S) :
    (∀ (st : EState) (ch : Char), BufOK st.rows → BufOK (o_insert_character S st ch).rows)
      ∧ (∀ st : EState, BufOK st.rows → BufOK (o_delete_character S st).rows)
      ∧ (∀ st : EState, BufOK st.rows → BufOK (o_insert_newline S st).rows)
      ∧ (∀ lines : List (List Char), BufOK (load_rows S lines)) :=
  ⟨fun st ch hB => insert_character_BufOK hWF st ch hB,
    fun st hB => delete_character_BufOK hWF st hB,
    fun st hB => insert_newline_BufOK hWF st hB,
    fun lines => load_rows_BufOK hWF lines⟩

/-- Witness for C1 with the Rust language on concrete buffers: loading three lines,
then inserting a character into an initially empty buffer. -/
theorem c1_witness :
    BufOK (load_rows rustHighlight ["/* a".data, "b */".data, "fn f".data])
      ∧ BufOK (o_insert_character rustHighlight
          { rows := [], cursor_x := 0, cursor_y := 0 } '/').rows := by
  constructor
  · exact (c1_mutations_preserve_highlight_length (by decide)).2.2.2 _
  · exact (c1_mutations_preserve_highlight_length (by decide)).1 _ '/' (by decide)

/-! ### C5: split / join round trip -/

theorem map_listModifyAt_append (c : List Char) (n : Nat) (l : List Row) :
    (listModifyAt
        (fun prev => { prev with
          row_content := prev.row_content ++ c,
          render := render_row (prev.row_content ++ c) }) n l).map Row.row_content
      = listModifyAt (fun x => x ++ c) n (l.map Row.row_content) := by
  apply map_listModifyAt_comm
  intro a
  rfl

theorem map_listModifyAt_take (k n : Nat) (l : List Row) :
    (listModifyAt
        (fun r => { r with
          row_content := r.row_content.take k,
          render := render_row (r.row_content.take k) }) n l).map Row.row_content
      = listModifyAt (List.take k) n (l.map Row.row_content) := by
  apply map_listModifyAt_comm
  intro a
  rfl

theorem map_join_adjacent_rows (rows : List Row) (idx : Nat) :
    (join_adjacent_rows rows idx).map Row.row_content
      = joinContents (rows.map Row.row_content) idx := by
  unfold join_adjacent_rows joinContents
  rw [listGet?_map]
  rcases hg : listGet? idx rows with _ | cur
  · rfl
  · dsimp only [Option.map]
    rw [map_listModifyAt_append, map_listRemoveAt]

theorem joinContents_cons (c : List Char) (X : List (List Char)) (n : Nat)
    (h : 1 ≤ n) : joinContents (c :: X) (n + 1) = c :: joinContents X n := by
  unfold joinContents
  simp only [listGet?]
  rcases hg : listGet? n X with _ | cur
  · rfl
  · rcases n with _ | m
    · omega
    · simp only [listRemoveAt, listModifyAt, Nat.add_sub_cancel]

theorem joinContents_insert_nil :
    ∀ (y : Nat) (L : List (List Char)), y < L.length →
      joinContents (listInsertAt y [] L) (y + 1) = L := by
  intro y
  induction y with
  | zero =>
    intro L hy
    match L with
    | c :: Ls => simp [listInsertAt, joinContents, listGet?, listRemoveAt, listModifyAt]
  | succ y ih =>
    intro L hy
    match L with
    | c :: Ls =>
      have hy' : y < Ls.length := by
        simp only [List.length_cons] at hy
        omega
      rw [show listInsertAt (y + 1) [] (c :: Ls) = c :: listInsertAt y [] Ls from rfl]
      rw [joinContents_cons _ _ _ (by omega)]
      rw [ih Ls hy']

theorem joinContents_split_take :
    ∀ (y : Nat) (L : List (List Char)) (k : Nat), y < L.length →
      joinContents
        (listInsertAt (y + 1) (((listGet? y L).getD []).drop k)
          (listModifyAt (List.take k) y L)) (y + 1) = L := by
  intro y
  induction y with
  | zero =>
    intro L k hy
    match L with
    | c :: Ls =>
      simp [listInsertAt, listModifyAt, joinContents, listGet?, listRemoveAt,
        List.take_append_drop]
  | succ y ih =>
    intro L k hy
    match L with
    | c :: Ls =>
      have hy' : y < Ls.length := by
        simp only [List.length_cons] at hy
        omega
      rw [show listGet? (y + 1) (c :: Ls) = listGet? y Ls from rfl]
      rw [show listModifyAt (List.take k) (y + 1) (c :: Ls)
        = c :: listModifyAt (List.take k) y Ls from rfl]
      rw [show listInsertAt (y + 2) (((listGet? y Ls).getD []).drop k)
          (c :: listModifyAt (List.take k) y Ls)
        = c :: listInsertAt (y + 1) (((listGet? y Ls).getD []).drop k)
          (listModifyAt (List.take k) y Ls) from rfl]
      rw [joinContents_cons _ _ _ (by omega)]
      rw [ih Ls k hy']

/-- C5: splitting a row at any column `k` via `insert_newline` and immediately
joining the two resulting rows reproduces every row's `row_content` exactly (the
split row is reassembled, the rest of the buffer is untouched). -/
theorem c5_split_join_roundtrip (S : LangDef) (rows : List Row) (y k : Nat)
    (hy : y < rows.length) :
    (join_adjacent_rows
        (o_insert_newline S { rows := rows, cursor_x := k, cursor_y := y }).rows
        (y + 1)).map Row.row_content
      = rows.map Row.row_content := by
  rw [map_join_adjacent_rows]
  unfold o_insert_newline
  dsimp only
  by_cases hk : k = 0
  · rw [if_pos hk]
    unfold insert_row
    rw [map_listInsertAt]
    dsimp only [mkRow]
    exact joinContents_insert_nil y _ (by simpa using hy)
  · rw [if_neg hk]
    rw [update_syntax_at_map_content, update_syntax_at_map_content]
    unfold insert_row
    rw [map_listInsertAt]
    dsimp only [mkRow]
    rw [map_listModifyAt_take]
    rw [show ((listGet? y rows).map Row.row_content).getD []
      = (listGet? y (rows.map Row.row_content)).getD [] from by rw [listGet?_map]]
    exact joinContents_split_take y _ k (by simpa using hy)

/-- Witness for C5 on a concrete two-row buffer, split in the middle of row 0. -/
theorem c5_witness :
    (join_adjacent_rows
        (o_insert_newline rustHighlight
          { rows := [mkRow "ab".data, mkRow "cd".data], cursor_x := 1, cursor_y := 0 }).rows
        1).map Row.row_content
      = [mkRow "ab".data, mkRow "cd".data].map Row.row_content :=
  c5_split_join_roundtrip rustHighlight [mkRow "ab".data, mkRow "cd".data] 0 1
    (by decide)


/-! ### C3, C7, C10: highlighter behavior on concrete rows -/

/-- C3: running `update_syntax` on row 0 of `["/* start", "middle", "end */ code"]`
propagates the comment flag: rows 1 and 2 end up tagged block-comment through
`"end */"` with the trailing `" code"` not comment-tagged; deleting the `/*` marker
from row 0 (two `delete_character` calls, each re-highlighting from row 0) clears the
comment tags on rows 1 and 2. -/
theorem c3_block_comment_propagation :
    c3Buffer.map Row.highlight
        = [List.replicate 8 HighlightType.MultilineComment,
           List.replicate 6 HighlightType.MultilineComment,
           List.replicate 6 HighlightType.MultilineComment
             ++ List.replicate 5 HighlightType.Normal]
      ∧ c3Buffer.map Row.is_comment = [true, true, false]
      ∧ c3Edited.map Row.row_content
        = [" start".data, "middle".data, "end */ code".data]
      ∧ c3Edited.map Row.highlight
        = [List.replicate 6 HighlightType.Normal,
           List.replicate 6 HighlightType.Normal,
           List.replicate 11 HighlightType.Normal]
      ∧ c3Edited.map Row.is_comment = [false, false, false] := by
  decide

/-- C7: keyword tagging respects token boundaries — `"iffy"` carries no keyword tag
at all, while `"if("` tags exactly the two characters of `if` with the keyword class
(Red) because `(` is a separator. -/
theorem c7_keyword_boundary :
    (scanRow rustHighlight "iffy".data false).1 = List.replicate 4 HighlightType.Normal
      ∧ (scanRow rustHighlight "if(".data false).1
        = [HighlightType.Other TermColor.red, HighlightType.Other TermColor.red,
           HighlightType.Normal] := by
  decide

/-- C10 counterexample: on the row `"'"` the middle single-quote has no later
matching single quote on the line, yet it is tagged `DoubleQuoteString` (it sits
inside the double-quoted literal), not `Normal` — refuting the claim's unconditional
"tagged Normal". -/
theorem c10_counterexample :
    listGet? 1 (scanRow rustHighlight quoteQuoteRow false).1
        = some HighlightType.DoubleQuoteString
      ∧ (quoteQuoteRow.drop 2).contains '\'' = false
      ∧ HighlightType.DoubleQuoteString ≠ HighlightType.Normal := by
  decide

theorem findKeyword_none_of_head {kws : List (TermColor × List Char)}
    {render : List Char} {i : Nat} {c : Char} {rest : List Char}
    (hd : render.drop i = c :: rest)
    (hall : ∀ p ∈ kws, (Prod.snd p : List Char) ≠ [] ∧ (Prod.snd p).headD ' ' ≠ c) :
    findKeyword kws render i = none := by
  induction kws with
  | nil => rfl
  | cons p ks ih =>
    obtain ⟨pc, pw⟩ := p
    obtain ⟨hne, hhd⟩ := hall (pc, pw) (List.mem_cons_self _ _)
    unfold findKeyword
    dsimp only
    rcases pw with _ | ⟨a, as⟩
    · exact absurd rfl hne
    · have hac : (a == c) = false := by
        simp only [beq_eq_false_iff_ne]
        simpa using hhd
      have hpre : (a :: as).isPrefixOf (render.drop i) = false := by
        rw [hd]
        simp [List.isPrefixOf, hac]
      rw [hpre]
      simp only [Bool.and_false, Bool.false_eq_true, if_false]
      exact ih fun q hq => hall q (List.mem_cons_of_mem _ hq)

/-- C10 (amended): a quote character scanned while not inside a string or comment,
with no later identical quote on the rest of the line, does not open a string
literal: the loop takes the default branch and tags it `Normal` (and, the quote being
a separator, sets `previous_separater`).  Inside a string or comment the quote keeps
that context's tag instead. -/
theorem c10_lone_quote_scans_normal (render : List Char) (i : Nat) (c : Char)
    (ps : Bool) (ph : HighlightType)
    (hc : listGet? i render = some c)
    (hq : c = '"' ∨ c = '\'')
    (hnl : (render.drop (i + 1)).contains c = false) :
    scanStep rustHighlight render i c ps none false ph
      = StepRes.adv 1 [HighlightType.Normal] true none false := by
  have hd := listDrop_get hc
  have hkw : findKeyword rustHighlight.keywords render i = none := by
    apply findKeyword_none_of_head hd
    rcases hq with h | h <;> subst h <;> decide
  have hcs : (rustHighlight.comment_start).isPrefixOf (render.drop i) = false := by
    rw [show rustHighlight.comment_start = ['/', '/'] from rfl, hd]
    rcases hq with h | h <;> subst h <;> simp [List.isPrefixOf]
  have hop : ("/*".data).isPrefixOf (render.drop i) = false := by
    rw [show "/*".data = ['/', '*'] from rfl, hd]
    rcases hq with h | h <;> subst h <;> simp [List.isPrefixOf]
  rcases hq with h | h <;> subst h <;>
    · unfold scanStep scanStep2
      rw [show rustHighlight.multiline_comment = some ("/*".data, "*/".data) from rfl]
      simp only [hcs, hop, hkw, hnl, ite_self]
      simp
      decide

/-- Witness for the amended C10 at a one-character row holding a lone double quote. -/
theorem c10_lone_quote_witness :
    scanStep rustHighlight ['"'] 0 '"' true none false HighlightType.Normal
      = StepRes.adv 1 [HighlightType.Normal] true none false :=
  c10_lone_quote_scans_normal ['"'] 0 '"' true HighlightType.Normal (by decide)
    (Or.inl rfl) (by decide)

/-! ### C4, C8, C9: the search engine -/

/-- C4: on `["foo", "foo"]`, an undirected search for `"foo"` matches row 0 first;
pressing Down and rescanning matches row 1; pressing Up from the row-1 match returns
to row 0. -/
theorem c4_directional_search_scenario :
    c4Step1.cc.cursor_y = 0 ∧ c4Step1.hit = some (0, 0)
      ∧ c4Step2.cc.cursor_y = 1 ∧ c4Step2.hit = some (1, 0)
      ∧ c4Step3.cc.cursor_y = 0 ∧ c4Step3.hit = some (0, 0) := by
  decide

/-- C8 counterexample: ending via Escape does not leave the cursor at the last
accepted match.  After the session over `["bar", "foo"]` whose match put the cursor
on row 1, `find` sees the prompt return `None` and restores the saved pre-search
cursor controller (row 0). -/
theorem c8_counterexample :
    c8Session.cc.cursor_y = 1
      ∧ (find_end cc80x24 c8Session.rows c8Session.cc c8Session.si "foo".data
          SKey.esc).cc = cc80x24
      ∧ (find_end cc80x24 c8Session.rows c8Session.cc c8Session.si "foo".data
          SKey.esc).cc.cursor_y ≠ c8Session.cc.cursor_y := by
  decide

/-- C8 (amended): ending the search with Enter or Escape resets the whole
`SearchIndex` (both indices, both directions, and the saved highlight snapshot);
on Enter the callback and `find` leave the cursor controller untouched, i.e. at the
last accepted match, but on Escape `find` restores the cursor controller it saved
before the search began. -/
theorem c8_find_end_clears_state (saved : CursorController) (rows : List Row)
    (cc : CursorController) (si : SearchIndex) (kw : List Char) :
    (find_end saved rows cc si kw SKey.enter).si = SearchIndex.fresh
      ∧ (find_end saved rows cc si kw SKey.enter).cc = cc
      ∧ (find_end saved rows cc si kw SKey.enter).hit = none
      ∧ (find_end saved rows cc si kw SKey.esc).si = SearchIndex.fresh
      ∧ (find_end saved rows cc si kw SKey.esc).cc = saved
      ∧ (find_end saved rows cc si kw SKey.esc).hit = none := by
  unfold find_end prompt_result find_core
  rcases hph : si.previous_highlight with _ | ⟨idx, hl⟩ <;> dsimp only <;>
    exact ⟨rfl, rfl, rfl, rfl, rfl, rfl⟩

/-- Every `find_callback` invocation either leaves the cursor untouched or records a
hit (the branch that moves the cursor is exactly the one that matched). -/
theorem find_core_cc_cases (rows : List Row) (cc : CursorController)
    (si : SearchIndex) (kw : List Char) (key : SKey) :
    (find_core rows cc si kw key).cc = cc
      ∨ ∃ p, (find_core rows cc si kw key).hit = some p := by
  unfold find_core
  rcases hph : si.previous_highlight with _ | ⟨idx, hl⟩ <;> dsimp only <;>
    cases key <;> dsimp only <;> try exact Or.inl rfl
  all_goals
    split
    next => exact Or.inl rfl
    next =>
      split
      next => exact Or.inl rfl
      next => exact Or.inr ⟨_, rfl⟩

/-- C9 counterexample: a full no-match pass does change the search state — on
`["a", "b"]` with a fresh `SearchIndex`, an undirected scan for `"z"` finds nothing,
yet leaves `y_index = 1` (it was 0), because the undirected branch writes the anchor
on every candidate row. -/
theorem c9_counterexample :
    (find_core abBuffer cc80x24 SearchIndex.fresh "z".data SKey.other).hit = none
      ∧ (find_core abBuffer cc80x24 SearchIndex.fresh "z".data SKey.other).si.y_index = 1
      ∧ SearchIndex.fresh.y_index = 0 := by
  decide

/-- C9 (amended): a pass that finds no occurrence leaves the cursor unchanged — a
normal, non-error outcome — but the search state may change (the saved snapshot is
consumed, the directions are rederived from the key, and the undirected scan leaves
`y_index` at the last row visited). -/
theorem c9_no_match_keeps_cursor (rows : List Row) (cc : CursorController)
    (si : SearchIndex) (kw : List Char) (key : SKey)
    (h : (find_core rows cc si kw key).hit = none) :
    (find_core rows cc si kw key).cc = cc := by
  rcases find_core_cc_cases rows cc si kw key with hcc | ⟨p, hp⟩
  · exact hcc
  · rw [h] at hp
    cases hp

/-- Witness for the amended C9 at the concrete no-match pass. -/
theorem c9_no_match_witness :
    (find_core abBuffer cc80x24 SearchIndex.fresh "z".data SKey.other).cc = cc80x24 :=
  c9_no_match_keeps_cursor abBuffer cc80x24 SearchIndex.fresh "z".data SKey.other
    (by decide)


end Vimrs
